import Mathlib

/-!
# Verification of the markdown-deck core algorithms

Shallow embedding of the algorithmic core of the `markdown-deck` web
application: the slide-segmentation routine of
`src/components/PresentationView.tsx`, the pan/zoom viewport transform of
`src/components/ImageZoomModal.tsx`, the asset-map bookkeeping of
`src/App.tsx`, and the drag-reorder logic of
`src/components/DraggableFileList.tsx`.

Strings are modelled as `List Char` (JavaScript strings), numeric viewport
quantities as `ℚ` (idealising IEEE doubles by exact rationals), and
`URL.createObjectURL` handles as natural numbers drawn from a fresh counter.
-/

namespace MarkdownDeck

/-- `MarkdownFile` from `src/types.ts`: `{ id, name, content }`. -/
structure MarkdownFile where
  id : String
  name : String
  content : String
deriving DecidableEq, Repr

/-- The characters stripped by JavaScript `String.prototype.trim` that can
occur in the inputs we model: space, tab, newline, carriage return,
vertical tab and form feed. -/
def isJsWhitespace (c : Char) : Bool :=
  c = ' ' || c = '\t' || c = '\n' || c = '\r' || c = '\x0b' || c = '\x0c'

/-- `s.trim() === ''`: every character is whitespace. -/
def isBlank (s : List Char) : Bool := s.all isJsWhitespace

/-- `s.trim()`: drop leading and trailing whitespace. -/
def jsTrim (s : List Char) : List Char :=
  ((s.dropWhile isJsWhitespace).reverse.dropWhile isJsWhitespace).reverse

/-- The regex `#{1,2} ` tested at one position of the subject string: it
matches iff the string continues with `"# "` or `"## "` (after failing to
extend `#` to `##`, the regex engine backtracks, so three `#` in a row
followed by a space do not match). -/
def startsWithHeading : List Char → Bool
  | a :: b :: c :: _ => (a == '#' && b == ' ') || (a == '#' && b == '#' && c == ' ')
  | a :: b :: [] => a == '#' && b == ' '
  | _ => false

/-- The ECMAScript LineTerminator characters: LINE FEED, CARRIAGE RETURN,
LINE SEPARATOR (U+2028) and PARAGRAPH SEPARATOR (U+2029).  In multiline
mode `^` matches at the start of the string and immediately after any of
these. -/
def isLineTerminator (c : Char) : Bool :=
  c = '\n' || c = '\r' || c = '\u2028' || c = '\u2029'

/-- The scan performed by `combinedContent.split(/(?=^#{1,2} )/m)`
(PresentationView.tsx line 30).  `acc` is the reversed portion of the
current segment.  In multiline mode `^` matches at the start of the string
and after every LineTerminator; a zero-width match at the position of the
previous cut (in particular at index 0) does not produce a cut, so the scan
cuts exactly after each line terminator that is followed by a heading
match, keeping the terminator in the earlier segment. -/
def splitAux (acc : List Char) : List Char → List (List Char)
  | [] => [acc.reverse]
  | c :: rest =>
    if isLineTerminator c = true ∧ startsWithHeading rest = true then
      (c :: acc).reverse :: splitAux [] rest
    else
      splitAux (c :: acc) rest

/-- `combinedContent.split(/(?=^#{1,2} )/m)`. -/
def splitSlides (s : List Char) : List (List Char) := splitAux [] s

/-- `markdownFiles.map(f => f.content).join('\n\n')` (PresentationView.tsx
line 24). -/
def combinedContent (docs : List MarkdownFile) : List Char :=
  List.intercalate ['\n', '\n'] (docs.map fun f => f.content.data)

/-- The segments surviving `filter(slide => slide.trim() !== '')`. -/
def filteredSegments (docs : List MarkdownFile) : List (List Char) :=
  (splitSlides (combinedContent docs)).filter fun slide => !(isBlank slide)

/-- The slide list produced by the segmentation effect of
`PresentationView.tsx` lines 21–41, including the fallback branches. -/
def segmentSlides (docs : List MarkdownFile) : List (List Char) :=
  let combined := combinedContent docs
  let generatedSlides := (splitSlides combined).filter fun slide => !(isBlank slide)
  if generatedSlides.length > 0 then generatedSlides
  else if !(isBlank combined) then [combined]
  else []

/-- `currentSlideContent.trim().startsWith('# ')` (PresentationView.tsx
line 88). -/
def isTitleSlide (content : List Char) : Bool :=
  List.isPrefixOf ['#', ' '] (jsTrim content)

/-- The claim's classification rule for C7, written from the spec's words:
after trimming LEADING whitespace only, the content begins with `"# "`. -/
def titleByLeadingTrim (content : List Char) : Bool :=
  List.isPrefixOf ['#', ' '] (content.dropWhile isJsWhitespace)

/-! ## Basic unfolding lemmas for the segmentation scan -/

theorem splitAux_nil (acc : List Char) : splitAux acc [] = [acc.reverse] := rfl

theorem splitAux_cons (acc : List Char) (c : Char) (rest : List Char) :
    splitAux acc (c :: rest) =
      if isLineTerminator c = true ∧ startsWithHeading rest = true then
        (c :: acc).reverse :: splitAux [] rest
      else
        splitAux (c :: acc) rest := rfl

/-- The scan never loses or invents characters: the segments concatenate
back to the scanned string (prefixed by the pending accumulator). -/
theorem splitAux_join (s : List Char) :
    ∀ acc, (splitAux acc s).flatten = acc.reverse ++ s := by
  induction s with
  | nil => intro acc; simp [splitAux_nil]
  | cons c rest ih =>
    intro acc
    rw [splitAux_cons]
    by_cases h : isLineTerminator c = true ∧ startsWithHeading rest = true
    · rw [if_pos h]
      simp [ih []]
    · rw [if_neg h, ih (c :: acc)]
      simp

/-- Splitting preserves the content verbatim. -/
theorem splitSlides_join (s : List Char) : (splitSlides s).flatten = s := by
  simpa using splitAux_join s []

/-- Every segment of a blank string is blank. -/
theorem mem_splitSlides_blank {s : List Char} (hs : isBlank s = true) :
    ∀ t ∈ splitSlides s, isBlank t = true := by
  intro t ht
  rw [isBlank, List.all_eq_true] at hs ⊢
  intro c hc
  exact hs c (by rw [← splitSlides_join s]; exact List.mem_flatten.2 ⟨t, ht, hc⟩)

/-- `segmentSlides` unfolded through `filteredSegments`. -/
theorem segmentSlides_eq (docs : List MarkdownFile) :
    segmentSlides docs =
      if (filteredSegments docs).length > 0 then filteredSegments docs
      else if !(isBlank (combinedContent docs)) then [combinedContent docs]
      else [] := rfl

/-! ## C1 -/

/-- C1 counterexample: for documents `"# A\ntext1"` and `"## B\ntext2"` the
segmentation does NOT return the two document contents verbatim — the
blank-line separator inserted by `join('\n\n')` stays attached to the end of
the first slide. -/
theorem segmentSlides_two_docs_not_verbatim :
    segmentSlides [⟨"a", "a.md", "# A\ntext1"⟩, ⟨"b", "b.md", "## B\ntext2"⟩] ≠
      ["# A\ntext1".data, "## B\ntext2".data] := by decide

/-- C1 (amended): for documents `"# A\ntext1"` and `"## B\ntext2"` the
segmentation yields exactly two slides, split before the level-2 heading
with each heading line retained; the first slide is the first document's
content followed by the inserted `"\n\n"` separator, and the second slide is
the second document's content verbatim. -/
theorem segmentSlides_two_docs :
    segmentSlides [⟨"a", "a.md", "# A\ntext1"⟩, ⟨"b", "b.md", "## B\ntext2"⟩] =
      ["# A\ntext1\n\n".data, "## B\ntext2".data] := by decide

/-! ## C5 -/

/-- C5: segmentation is total by construction and degrades gracefully: the
result is empty exactly when the concatenated text is blank, and whenever
the heading-based filter yields zero segments the result is the entire
concatenated text as a single slide if that text is non-blank, and empty
otherwise. -/
theorem segmentSlides_blank_and_fallback (docs : List MarkdownFile) :
    (segmentSlides docs = [] ↔ isBlank (combinedContent docs) = true)
    ∧ (filteredSegments docs = [] →
        segmentSlides docs =
          if isBlank (combinedContent docs) then [] else [combinedContent docs]) := by
  constructor
  · constructor
    · intro h
      rw [segmentSlides_eq] at h
      by_cases h1 : (filteredSegments docs).length > 0
      · rw [if_pos h1] at h
        rw [h] at h1
        simp at h1
      · rw [if_neg h1] at h
        by_cases h2 : isBlank (combinedContent docs) = true
        · exact h2
        · rw [if_pos (by simp [h2])] at h
          exact absurd h (by simp)
    · intro hb
      have hfil : filteredSegments docs = [] := by
        rw [filteredSegments, List.filter_eq_nil_iff]
        intro t ht
        simp [mem_splitSlides_blank hb t ht]
      rw [segmentSlides_eq, hfil]
      simp [hb]
  · intro h
    rw [segmentSlides_eq, h]
    by_cases hb : isBlank (combinedContent docs) = true <;> simp [hb]

/-- C5 witness: on the empty document list the filter yields zero segments
and the result is empty (the blank branch of the fallback). -/
theorem segmentSlides_blank_and_fallback_witness :
    segmentSlides [] =
      if isBlank (combinedContent []) then [] else [combinedContent []] :=
  (segmentSlides_blank_and_fallback []).2 (by decide)

/-! ## C7 -/

/-- C7 counterexample: the slide `"# "` begins with `"# "` after trimming
only its leading whitespace, yet the code classifies it as not title-style,
because JavaScript `trim()` also removes the trailing space, leaving `"#"`. -/
theorem isTitleSlide_leading_trim_mismatch :
    titleByLeadingTrim "# ".data = true ∧ isTitleSlide "# ".data = false := by
  refine ⟨by decide, by decide⟩

/-- C7 (amended): a slide is title-style iff its content, after trimming
BOTH leading and trailing whitespace, begins with a single `'#'` followed by
a space; in particular a slide whose trimmed content begins with `"## "` is
not title-style. -/
theorem isTitleSlide_iff (content : List Char) :
    (isTitleSlide content = true ↔ ['#', ' '] <+: jsTrim content)
    ∧ (('#' :: '#' :: ' ' :: []) <+: jsTrim content → isTitleSlide content = false) := by
  constructor
  · exact List.isPrefixOf_iff_prefix
  · rintro ⟨r, hr⟩
    rw [isTitleSlide, ← hr]
    rfl

/-- C7 witness: a slide whose trimmed content begins with `"## "` is not
title-style. -/
theorem isTitleSlide_iff_witness : isTitleSlide "## x".data = false :=
  (isTitleSlide_iff "## x".data).2 ⟨['x'], by decide⟩

/-! ## C6: characterization of the heading-anchored split -/

/-- The spec's wording of a boundary line: exactly one or two `'#'`
characters followed by a space. -/
def specHeadingLine (s : List Char) : Prop :=
  ∃ k r, (k = 1 ∨ k = 2) ∧ s = List.replicate k '#' ++ ' ' :: r

/-- The regex test agrees with the spec's description of a boundary line. -/
theorem startsWithHeading_iff (s : List Char) :
    startsWithHeading s = true ↔ specHeadingLine s := by
  constructor
  · intro h
    rcases s with _ | ⟨a, _ | ⟨b, _ | ⟨c, t⟩⟩⟩
    · simp [startsWithHeading] at h
    · simp [startsWithHeading] at h
    · simp [startsWithHeading] at h
      exact ⟨1, [], Or.inl rfl, by simp [h.1, h.2]⟩
    · simp [startsWithHeading] at h
      rcases h with ⟨ha, hb⟩ | ⟨⟨ha, hb⟩, hc⟩
      · exact ⟨1, c :: t, Or.inl rfl, by simp [ha, hb]⟩
      · exact ⟨2, t, Or.inr rfl, by simp [ha, hb, hc, List.replicate]⟩
  · rintro ⟨k, r, hk | hk, hs⟩ <;> subst hk <;> subst hs <;>
      rcases r with _ | ⟨d, u⟩ <;> simp [startsWithHeading, List.replicate]

/-- A heading match is preserved by extending the string on the right. -/
theorem startsWithHeading_append (x y : List Char)
    (h : startsWithHeading x = true) : startsWithHeading (x ++ y) = true := by
  rcases x with _ | ⟨a, _ | ⟨b, _ | ⟨c, t⟩⟩⟩
  · simp [startsWithHeading] at h
  · simp [startsWithHeading] at h
  · simp [startsWithHeading] at h
    rcases y with _ | ⟨d, u⟩
    · simp [startsWithHeading, h.1, h.2]
    · simp [startsWithHeading, h.1, h.2]
  · simp only [List.cons_append]
    simp [startsWithHeading] at h ⊢
    tauto

/-- The head segment extends the pending accumulator. -/
theorem splitAux_head (s : List Char) :
    ∀ acc, ∃ u t, splitAux acc s = (acc.reverse ++ u) :: t := by
  induction s with
  | nil => intro acc; exact ⟨[], [], by rw [splitAux_nil, List.append_nil]⟩
  | cons c rest ih =>
    intro acc
    rw [splitAux_cons]
    by_cases h : isLineTerminator c = true ∧ startsWithHeading rest = true
    · rw [if_pos h]
      exact ⟨[c], splitAux [] rest, by rw [List.reverse_cons]⟩
    · rw [if_neg h]
      obtain ⟨u, t, hu⟩ := ih (c :: acc)
      refine ⟨c :: u, t, ?_⟩
      rw [hu, List.reverse_cons, List.append_assoc, List.singleton_append]

/-- If the scanned string itself begins with a heading, so does the first
segment the scan produces from it. -/
theorem splitAux_head_heading {s : List Char} (h : startsWithHeading s = true) :
    ∃ u t, splitAux [] s = u :: t ∧ startsWithHeading u = true := by
  rcases (startsWithHeading_iff s).1 h with ⟨k, r, hk | hk, hs⟩ <;> subst hk <;> subst hs
  · obtain ⟨u, t, hu⟩ := splitAux_head r [' ', '#']
    refine ⟨['#', ' '] ++ u, t, ?_, startsWithHeading_append ['#', ' '] u (by decide)⟩
    show splitAux [] ('#' :: ' ' :: r) = _
    rw [splitAux_cons, if_neg (by rintro ⟨h1, -⟩; exact absurd h1 (by decide)),
      splitAux_cons, if_neg (by rintro ⟨h1, -⟩; exact absurd h1 (by decide))]
    exact hu
  · obtain ⟨u, t, hu⟩ := splitAux_head r [' ', '#', '#']
    refine ⟨['#', '#', ' '] ++ u, t, ?_, startsWithHeading_append ['#', '#', ' '] u (by decide)⟩
    show splitAux [] ('#' :: '#' :: ' ' :: r) = _
    rw [splitAux_cons, if_neg (by rintro ⟨h1, -⟩; exact absurd h1 (by decide)),
      splitAux_cons, if_neg (by rintro ⟨h1, -⟩; exact absurd h1 (by decide)),
      splitAux_cons, if_neg (by rintro ⟨h1, -⟩; exact absurd h1 (by decide))]
    exact hu

/-- Every segment after the first begins with a heading match. -/
theorem splitAux_tail_heading (s : List Char) :
    ∀ acc, ∀ t ∈ (splitAux acc s).tail, startsWithHeading t = true := by
  induction s with
  | nil =>
    intro acc t ht
    rw [splitAux_nil] at ht
    simp at ht
  | cons c rest ih =>
    intro acc t ht
    rw [splitAux_cons] at ht
    by_cases h : isLineTerminator c = true ∧ startsWithHeading rest = true
    · rw [if_pos h] at ht
      rw [List.tail_cons] at ht
      obtain ⟨u, tl, hu, hhead⟩ := splitAux_head_heading h.2
      rw [hu] at ht
      rcases List.mem_cons.1 ht with rfl | ht
      · exact hhead
      · exact ih [] t (by rw [hu, List.tail_cons]; exact ht)
    · rw [if_neg h] at ht
      exact ih (c :: acc) t ht

/-- Every segment but the last ends with the line terminator that precedes
the next segment's heading: cuts happen only at line starts. -/
theorem splitAux_dropLast_terminator (s : List Char) :
    ∀ acc, ∀ t ∈ (splitAux acc s).dropLast,
      ∃ c, t.getLast? = some c ∧ isLineTerminator c = true := by
  induction s with
  | nil =>
    intro acc t ht
    rw [splitAux_nil] at ht
    simp at ht
  | cons c rest ih =>
    intro acc t ht
    rw [splitAux_cons] at ht
    by_cases h : isLineTerminator c = true ∧ startsWithHeading rest = true
    · rw [if_pos h] at ht
      obtain ⟨u, tl, hu⟩ := splitAux_head rest []
      rw [hu, List.dropLast_cons₂] at ht
      rcases List.mem_cons.1 ht with rfl | ht
      · exact ⟨c, by rw [List.reverse_cons, List.getLast?_concat], h.1⟩
      · exact ih [] t (by rw [hu]; exact ht)
    · rw [if_neg h] at ht
      exact ih (c :: acc) t ht

/-- Splitting a pair of concatenations that both end in a singleton. -/
theorem append_singleton_inj {l₁ l₂ : List Char} {a b : Char}
    (h : l₁ ++ [a] = l₂ ++ [b]) : l₁ = l₂ ∧ a = b := by
  have h' := List.append_inj' h rfl
  exact ⟨h'.1, by simpa using h'.2⟩

/-- A potential cut point strictly inside a string: a line terminator
followed by a heading match (position 0 is deliberately not considered — a
segment is allowed to begin with a heading). -/
def hasInnerCut : List Char → Bool
  | [] => false
  | c :: rest =>
    if isLineTerminator c = true ∧ startsWithHeading rest = true then true
    else hasInnerCut rest

theorem hasInnerCut_cons (c : Char) (rest : List Char) :
    hasInnerCut (c :: rest) =
      if isLineTerminator c = true ∧ startsWithHeading rest = true then true
      else hasInnerCut rest := rfl

/-- Sufficient condition for the absence of inner cut points. -/
theorem hasInnerCut_eq_false {t : List Char}
    (h : ∀ w c z, t = w ++ c :: z → isLineTerminator c = true →
      startsWithHeading z = false) :
    hasInnerCut t = false := by
  induction t with
  | nil => rfl
  | cons c rest ih =>
    rw [hasInnerCut_cons]
    by_cases hc : isLineTerminator c = true ∧ startsWithHeading rest = true
    · exact absurd (h [] c rest rfl hc.1) (by simp [hc.2])
    · rw [if_neg hc]
      exact ih fun w c2 z hw hterm => h (c :: w) c2 z (by rw [hw]; rfl) hterm

/-- No segment produced by the scan contains an unexploited cut point: the
scan splits at EVERY line-start heading, not only the first. -/
theorem splitAux_no_inner_cut (s : List Char) :
    ∀ acc,
      (∀ w c z, acc.reverse = w ++ c :: z → isLineTerminator c = true →
        startsWithHeading (z ++ s) = false) →
      ∀ t ∈ splitAux acc s, hasInnerCut t = false := by
  induction s with
  | nil =>
    intro acc hpend t ht
    rw [splitAux_nil] at ht
    simp only [List.mem_singleton] at ht
    subst ht
    exact hasInnerCut_eq_false fun w c z hw hterm => by
      simpa using hpend w c z hw hterm
  | cons c rest ih =>
    intro acc hpend t ht
    rw [splitAux_cons] at ht
    by_cases h : isLineTerminator c = true ∧ startsWithHeading rest = true
    · rw [if_pos h] at ht
      rcases List.mem_cons.1 ht with rfl | ht
      · refine hasInnerCut_eq_false ?_
        intro w c2 z hw hterm
        rw [List.reverse_cons] at hw
        rcases z.eq_nil_or_concat with rfl | ⟨z2, d, rfl⟩
        · rfl
        · rw [List.concat_eq_append] at hw ⊢
          have hw2 : acc.reverse ++ [c] = (w ++ c2 :: z2) ++ [d] := by
            rw [hw, List.append_assoc, List.cons_append]
          obtain ⟨h1, h2⟩ := append_singleton_inj hw2
          cases hSW : startsWithHeading (z2 ++ [d])
          · rfl
          · have hext := startsWithHeading_append (z2 ++ [d]) rest hSW
            rw [List.append_assoc, List.singleton_append, ← h2] at hext
            have hp := hpend w c2 z2 h1 hterm
            rw [hp] at hext
            exact hext.symm
      · exact ih [] (fun w c2 z hw hterm => by simp at hw) t ht
    · rw [if_neg h] at ht
      refine ih (c :: acc) ?_ t ht
      intro w c2 z hw hterm
      rw [List.reverse_cons] at hw
      rcases z.eq_nil_or_concat with rfl | ⟨z2, d, rfl⟩
      · obtain ⟨h1, h2⟩ := append_singleton_inj hw
        rw [List.nil_append]
        cases hb : startsWithHeading rest
        · rfl
        · exact (h ⟨by rw [h2]; exact hterm, hb⟩).elim
      · rw [List.concat_eq_append] at hw ⊢
        have hw2 : acc.reverse ++ [c] = (w ++ c2 :: z2) ++ [d] := by
          rw [hw, List.append_assoc, List.cons_append]
        obtain ⟨h1, h2⟩ := append_singleton_inj hw2
        rw [List.append_assoc, List.singleton_append, ← h2]
        exact hpend w c2 z2 h1 hterm

/-- C6: characterization of segment boundaries.  The segments concatenate
back to the input verbatim; every segment after the first begins with a
line consisting of exactly one or two `'#'` followed by a space; every
segment except the last ends with a line terminator (the multiline `^`
matches after LF, CR, U+2028 or U+2029, so a `'#'` occurring mid-line
never starts a segment); and no segment contains a further line-start
heading (so the boundary rule is applied at every line start of the whole
string, and level-3+ headings or mid-line `'#'` never caused a split). -/
theorem splitSlides_boundary_characterization (s : List Char) :
    (splitSlides s).flatten = s
    ∧ (∀ t ∈ (splitSlides s).tail, specHeadingLine t)
    ∧ (∀ t ∈ (splitSlides s).dropLast,
        ∃ c, t.getLast? = some c ∧ isLineTerminator c = true)
    ∧ (∀ t ∈ splitSlides s, hasInnerCut t = false) := by
  refine ⟨splitSlides_join s, ?_, ?_, ?_⟩
  · intro t ht
    exact (startsWithHeading_iff t).1 (splitAux_tail_heading s [] t ht)
  · exact fun t ht => splitAux_dropLast_terminator s [] t ht
  · exact splitAux_no_inner_cut s [] (fun w c z hw hterm => by simp at hw)

/-- C6 witness: evaluated on `"x\n## y\n### z"`, the split of the second
slide occurs at the level-2 heading line, which indeed consists of two `'#'`
and a space, and the level-3 heading did not open a segment. -/
theorem splitSlides_boundary_characterization_witness :
    specHeadingLine "## y\n### z".data :=
  (splitSlides_boundary_characterization "x\n## y\n### z".data).2.1
    "## y\n### z".data (by decide)

/-! ## Viewport transform (`src/components/ImageZoomModal.tsx`)

The modal's numeric state is modelled over `ℚ`.  The container and image
elements have fixed dimensions (`offsetWidth`/`offsetHeight`, assumed equal
to the bounding-rect dimensions used by the handlers) and the container's
bounding rect has a fixed origin. -/

/-- `MIN_SCALE` (line 9). -/
def MIN_SCALE : ℚ := 1/2

/-- `MAX_SCALE` (line 10). -/
def MAX_SCALE : ℚ := 8

/-- `ZOOM_SENSITIVITY` (line 11). -/
def ZOOM_SENSITIVITY : ℚ := 5/1000

/-- Fixed layout geometry of the modal. -/
structure Layout where
  containerWidth : ℚ
  containerHeight : ℚ
  imageWidth : ℚ
  imageHeight : ℚ
  rectLeft : ℚ
  rectTop : ℚ
deriving DecidableEq, Repr

/-- Modal state: `scale`, `position`, `isDraggingRef`, `startDragPosRef`. -/
structure ZoomState where
  scale : ℚ
  posX : ℚ
  posY : ℚ
  dragging : Bool
  startDragX : ℚ
  startDragY : ℚ
deriving DecidableEq, Repr

/-- Initial state (lines 14–20, also restored by the `src`-change effect). -/
def initZoomState : ZoomState :=
  { scale := 1
    posX := 0
    posY := 0
    dragging := false
    startDragX := 0
    startDragY := 0 }

/-- The local `overhangX` of `clampPosition` (line 50). -/
def overhangX (ly : Layout) (currentScale : ℚ) : ℚ :=
  max 0 ((ly.imageWidth * currentScale - ly.containerWidth) / 2)

/-- The local `overhangY` of `clampPosition` (line 51). -/
def overhangY (ly : Layout) (currentScale : ℚ) : ℚ :=
  max 0 ((ly.imageHeight * currentScale - ly.containerHeight) / 2)

/-- `clampPosition` (lines 39–57). -/
def clampPosition (ly : Layout) (posX posY currentScale : ℚ) : ℚ × ℚ :=
  (max (-overhangX ly currentScale) (min (overhangX ly currentScale) posX),
   max (-overhangY ly currentScale) (min (overhangY ly currentScale) posY))

/-- `handleWheel` (lines 59–76). -/
def handleWheel (ly : Layout) (st : ZoomState) (clientX clientY deltaY : ℚ) :
    ZoomState :=
  let zoomFactor := 1 - deltaY * ZOOM_SENSITIVITY
  let newScale := max MIN_SCALE (min MAX_SCALE (st.scale * zoomFactor))
  let mouseX := clientX - ly.rectLeft
  let mouseY := clientY - ly.rectTop
  let newPosX := mouseX - ((mouseX - st.posX) / st.scale) * newScale
  let newPosY := mouseY - ((mouseY - st.posY) / st.scale) * newScale
  let p := clampPosition ly newPosX newPosY newScale
  { st with scale := newScale, posX := p.1, posY := p.2 }

/-- `handleMouseDown` (lines 78–86).  The source guard is
`if (scale <= 1 && e.button === 0) return`: dragging is prevented only when
BOTH the scale is at most 1 AND the pressed button is the primary one. -/
def handleMouseDown (st : ZoomState) (clientX clientY : ℚ) (button : ℕ) :
    ZoomState :=
  if st.scale ≤ 1 ∧ button = 0 then st
  else
    { st with
      dragging := true
      startDragX := clientX - st.posX
      startDragY := clientY - st.posY }

/-- `handleMouseMove` (lines 88–96). -/
def handleMouseMove (ly : Layout) (st : ZoomState) (clientX clientY : ℚ) :
    ZoomState :=
  if st.dragging = false then st
  else
    let p := clampPosition ly (clientX - st.startDragX) (clientY - st.startDragY)
      st.scale
    { st with posX := p.1, posY := p.2 }

/-- `handleMouseUpOrLeave` (lines 98–101). -/
def handleMouseUpOrLeave (st : ZoomState) : ZoomState :=
  { st with dragging := false }

/-- `handleZoom` (lines 103–118): factor `1.25` for zoom-in, `0.8` for
zoom-out, anchored at the container center. -/
def handleZoom (ly : Layout) (st : ZoomState) (zoomIn : Bool) : ZoomState :=
  let zoomFactor : ℚ := if zoomIn then 5/4 else 4/5
  let newScale := max MIN_SCALE (min MAX_SCALE (st.scale * zoomFactor))
  let centerX := ly.containerWidth / 2
  let centerY := ly.containerHeight / 2
  let newPosX := centerX - ((centerX - st.posX) / st.scale) * newScale
  let newPosY := centerY - ((centerY - st.posY) / st.scale) * newScale
  let p := clampPosition ly newPosX newPosY newScale
  { st with scale := newScale, posX := p.1, posY := p.2 }

/-- `handleReset` (lines 120–123). -/
def handleReset (st : ZoomState) : ZoomState :=
  { st with scale := 1, posX := 0, posY := 0 }

/-- The pointer/wheel/button events the modal handles. -/
inductive ZoomEvent where
  | wheel (clientX clientY deltaY : ℚ)
  | mouseDown (clientX clientY : ℚ) (button : ℕ)
  | mouseMove (clientX clientY : ℚ)
  | mouseUp
  | zoomButton (zoomIn : Bool)
  | reset
deriving DecidableEq, Repr

/-- One UI event step of the modal. -/
def zoomStep (ly : Layout) (st : ZoomState) : ZoomEvent → ZoomState
  | .wheel cx cy dy => handleWheel ly st cx cy dy
  | .mouseDown cx cy b => handleMouseDown st cx cy b
  | .mouseMove cx cy => handleMouseMove ly st cx cy
  | .mouseUp => handleMouseUpOrLeave st
  | .zoomButton dir => handleZoom ly st dir
  | .reset => handleReset st

/-- Run a sequence of events from a state. -/
def zoomRun (ly : Layout) (st : ZoomState) (evs : List ZoomEvent) : ZoomState :=
  evs.foldl (zoomStep ly) st

/-- The viewport invariant of C3: scale within `[MIN_SCALE, MAX_SCALE]` and
each offset axis within the overhang bound for the current scale. -/
def ZoomInv (ly : Layout) (st : ZoomState) : Prop :=
  MIN_SCALE ≤ st.scale ∧ st.scale ≤ MAX_SCALE ∧
  -overhangX ly st.scale ≤ st.posX ∧ st.posX ≤ overhangX ly st.scale ∧
  -overhangY ly st.scale ≤ st.posY ∧ st.posY ≤ overhangY ly st.scale

theorem overhangX_nonneg (ly : Layout) (s : ℚ) : 0 ≤ overhangX ly s :=
  le_max_left 0 _

theorem overhangY_nonneg (ly : Layout) (s : ℚ) : 0 ≤ overhangY ly s :=
  le_max_left 0 _

/-- The clamped position lies within the overhang box. -/
theorem clampPosition_mem (ly : Layout) (px py s : ℚ) :
    -overhangX ly s ≤ (clampPosition ly px py s).1
    ∧ (clampPosition ly px py s).1 ≤ overhangX ly s
    ∧ -overhangY ly s ≤ (clampPosition ly px py s).2
    ∧ (clampPosition ly px py s).2 ≤ overhangY ly s := by
  refine ⟨le_max_left _ _, ?_, le_max_left _ _, ?_⟩
  · show max (-overhangX ly s) (min (overhangX ly s) px) ≤ overhangX ly s
    exact max_le (by linarith [overhangX_nonneg ly s]) (min_le_left _ _)
  · show max (-overhangY ly s) (min (overhangY ly s) py) ≤ overhangY ly s
    exact max_le (by linarith [overhangY_nonneg ly s]) (min_le_left _ _)

/-- The scale clamp lands in `[MIN_SCALE, MAX_SCALE]`. -/
theorem clampScale_mem (x : ℚ) :
    MIN_SCALE ≤ max MIN_SCALE (min MAX_SCALE x)
    ∧ max MIN_SCALE (min MAX_SCALE x) ≤ MAX_SCALE := by
  refine ⟨le_max_left _ _, max_le (by norm_num [MIN_SCALE, MAX_SCALE]) (min_le_left _ _)⟩

/-- Every event preserves the viewport invariant. -/
theorem zoomStep_inv (ly : Layout) (st : ZoomState) (ev : ZoomEvent)
    (h : ZoomInv ly st) : ZoomInv ly (zoomStep ly st ev) := by
  obtain ⟨hs1, hs2, hx1, hx2, hy1, hy2⟩ := h
  cases ev with
  | wheel cx cy dy =>
    obtain ⟨c1, c2⟩ := clampScale_mem (st.scale * (1 - dy * ZOOM_SENSITIVITY))
    obtain ⟨p1, p2, p3, p4⟩ := clampPosition_mem ly
      ((cx - ly.rectLeft) - (((cx - ly.rectLeft) - st.posX) / st.scale) *
        (max MIN_SCALE (min MAX_SCALE (st.scale * (1 - dy * ZOOM_SENSITIVITY)))))
      ((cy - ly.rectTop) - (((cy - ly.rectTop) - st.posY) / st.scale) *
        (max MIN_SCALE (min MAX_SCALE (st.scale * (1 - dy * ZOOM_SENSITIVITY)))))
      (max MIN_SCALE (min MAX_SCALE (st.scale * (1 - dy * ZOOM_SENSITIVITY))))
    exact ⟨c1, c2, p1, p2, p3, p4⟩
  | mouseDown cx cy b =>
    show ZoomInv ly (handleMouseDown st cx cy b)
    unfold handleMouseDown
    split
    · exact ⟨hs1, hs2, hx1, hx2, hy1, hy2⟩
    · exact ⟨hs1, hs2, hx1, hx2, hy1, hy2⟩
  | mouseMove cx cy =>
    show ZoomInv ly (handleMouseMove ly st cx cy)
    unfold handleMouseMove
    split
    · exact ⟨hs1, hs2, hx1, hx2, hy1, hy2⟩
    · obtain ⟨p1, p2, p3, p4⟩ := clampPosition_mem ly (cx - st.startDragX)
        (cy - st.startDragY) st.scale
      exact ⟨hs1, hs2, p1, p2, p3, p4⟩
  | mouseUp => exact ⟨hs1, hs2, hx1, hx2, hy1, hy2⟩
  | zoomButton dir =>
    obtain ⟨c1, c2⟩ := clampScale_mem (st.scale * (if dir then 5/4 else 4/5))
    obtain ⟨p1, p2, p3, p4⟩ := clampPosition_mem ly
      (ly.containerWidth / 2 - ((ly.containerWidth / 2 - st.posX) / st.scale) *
        (max MIN_SCALE (min MAX_SCALE (st.scale * (if dir then 5/4 else 4/5)))))
      (ly.containerHeight / 2 - ((ly.containerHeight / 2 - st.posY) / st.scale) *
        (max MIN_SCALE (min MAX_SCALE (st.scale * (if dir then 5/4 else 4/5)))))
      (max MIN_SCALE (min MAX_SCALE (st.scale * (if dir then 5/4 else 4/5))))
    exact ⟨c1, c2, p1, p2, p3, p4⟩
  | reset =>
    refine ⟨?_, ?_, ?_, ?_, ?_, ?_⟩
    · show MIN_SCALE ≤ (1 : ℚ)
      norm_num [MIN_SCALE]
    · show (1 : ℚ) ≤ MAX_SCALE
      norm_num [MAX_SCALE]
    · show -overhangX ly 1 ≤ (0 : ℚ)
      exact neg_nonpos_of_nonneg (overhangX_nonneg ly 1)
    · show (0 : ℚ) ≤ overhangX ly 1
      exact overhangX_nonneg ly 1
    · show -overhangY ly 1 ≤ (0 : ℚ)
      exact neg_nonpos_of_nonneg (overhangY_nonneg ly 1)
    · show (0 : ℚ) ≤ overhangY ly 1
      exact overhangY_nonneg ly 1

/-- The invariant holds along any run from any invariant state. -/
theorem zoomRun_inv_aux (ly : Layout) (evs : List ZoomEvent) :
    ∀ st, ZoomInv ly st → ZoomInv ly (zoomRun ly st evs) := by
  induction evs with
  | nil => exact fun st h => h
  | cons ev rest ih => exact fun st h => ih (zoomStep ly st ev) (zoomStep_inv ly st ev h)

/-- The initial state satisfies the invariant. -/
theorem initZoomState_inv (ly : Layout) : ZoomInv ly initZoomState := by
  refine ⟨?_, ?_, ?_, ?_, ?_, ?_⟩
  · show MIN_SCALE ≤ (1 : ℚ)
    norm_num [MIN_SCALE]
  · show (1 : ℚ) ≤ MAX_SCALE
    norm_num [MAX_SCALE]
  · show -overhangX ly 1 ≤ (0 : ℚ)
    exact neg_nonpos_of_nonneg (overhangX_nonneg ly 1)
  · show (0 : ℚ) ≤ overhangX ly 1
    exact overhangX_nonneg ly 1
  · show -overhangY ly 1 ≤ (0 : ℚ)
    exact neg_nonpos_of_nonneg (overhangY_nonneg ly 1)
  · show (0 : ℚ) ≤ overhangY ly 1
    exact overhangY_nonneg ly 1

/-! ## C3 -/

/-- C3: after any sequence of wheel zooms, button zooms, drags and resets
from the initial state, the scale lies in `[MIN_SCALE, MAX_SCALE]` and each
offset axis lies in `[-overhang, +overhang]` for the current scale; in
particular an axis on which the scaled image does not exceed the container
has offset exactly 0. -/
theorem zoomRun_bounds (ly : Layout) (evs : List ZoomEvent) :
    ZoomInv ly (zoomRun ly initZoomState evs)
    ∧ (ly.imageWidth * (zoomRun ly initZoomState evs).scale ≤ ly.containerWidth →
        (zoomRun ly initZoomState evs).posX = 0)
    ∧ (ly.imageHeight * (zoomRun ly initZoomState evs).scale ≤ ly.containerHeight →
        (zoomRun ly initZoomState evs).posY = 0) := by
  have hinv := zoomRun_inv_aux ly evs initZoomState (initZoomState_inv ly)
  obtain ⟨hs1, hs2, hx1, hx2, hy1, hy2⟩ := hinv
  refine ⟨⟨hs1, hs2, hx1, hx2, hy1, hy2⟩, ?_, ?_⟩
  · intro hfit
    have hz : overhangX ly (zoomRun ly initZoomState evs).scale = 0 := by
      rw [overhangX, max_eq_left]
      linarith
    rw [hz] at hx1 hx2
    linarith
  · intro hfit
    have hz : overhangY ly (zoomRun ly initZoomState evs).scale = 0 := by
      rw [overhangY, max_eq_left]
      linarith
    rw [hz] at hy1 hy2
    linarith

/-- A sample layout for witnesses: a 100×100 container, a 10×10 image. -/
def sampleLayout : Layout := ⟨100, 100, 10, 10, 0, 0⟩

/-- C3 witness: on the sample layout, after a zoom-out wheel event the
image still fits the container, so the offset is exactly 0. -/
theorem zoomRun_bounds_witness :
    (zoomRun sampleLayout initZoomState [ZoomEvent.wheel 3 4 100]).posX = 0 :=
  (zoomRun_bounds sampleLayout [ZoomEvent.wheel 3 4 100]).2.1 (by norm_num [zoomRun,
    zoomStep, handleWheel, clampPosition, sampleLayout, initZoomState, MIN_SCALE,
    MAX_SCALE, ZOOM_SENSITIVITY])

/-! ## C4 -/

/-- The spec's zoom-offset rule, stated from its words:
`new_offset = anchor − ((anchor − old_offset) / old_scale) × new_scale`. -/
def specZoomOffset (anchor oldOffset oldScale newScale : ℚ) : ℚ :=
  anchor - ((anchor - oldOffset) / oldScale) * newScale

/-- The spec's scale rule: multiply by the factor, clamp to
`[MIN_SCALE, MAX_SCALE]`. -/
def specZoomScale (oldScale factor : ℚ) : ℚ :=
  max MIN_SCALE (min MAX_SCALE (oldScale * factor))

/-- C4: a wheel event multiplies the scale by `1 - deltaY × 0.005` and
clamps it to `[0.5, 8]`; a button press multiplies by `1.25` (in) or `0.8`
(out) and clamps identically; and in each case the committed offset is the
clamp of the spec's anchor formula, with the cursor as anchor for wheel
events and the container center for button presses. -/
theorem zoom_event_formulas (ly : Layout) (st : ZoomState) (cx cy dy : ℚ)
    (zoomIn : Bool) :
    handleWheel ly st cx cy dy =
      { st with
        scale := specZoomScale st.scale (1 - dy * ZOOM_SENSITIVITY)
        posX := (clampPosition ly
            (specZoomOffset (cx - ly.rectLeft) st.posX st.scale
              (specZoomScale st.scale (1 - dy * ZOOM_SENSITIVITY)))
            (specZoomOffset (cy - ly.rectTop) st.posY st.scale
              (specZoomScale st.scale (1 - dy * ZOOM_SENSITIVITY)))
            (specZoomScale st.scale (1 - dy * ZOOM_SENSITIVITY))).1
        posY := (clampPosition ly
            (specZoomOffset (cx - ly.rectLeft) st.posX st.scale
              (specZoomScale st.scale (1 - dy * ZOOM_SENSITIVITY)))
            (specZoomOffset (cy - ly.rectTop) st.posY st.scale
              (specZoomScale st.scale (1 - dy * ZOOM_SENSITIVITY)))
            (specZoomScale st.scale (1 - dy * ZOOM_SENSITIVITY))).2 }
    ∧ handleZoom ly st zoomIn =
      { st with
        scale := specZoomScale st.scale (if zoomIn then 5/4 else 4/5)
        posX := (clampPosition ly
            (specZoomOffset (ly.containerWidth / 2) st.posX st.scale
              (specZoomScale st.scale (if zoomIn then 5/4 else 4/5)))
            (specZoomOffset (ly.containerHeight / 2) st.posY st.scale
              (specZoomScale st.scale (if zoomIn then 5/4 else 4/5)))
            (specZoomScale st.scale (if zoomIn then 5/4 else 4/5))).1
        posY := (clampPosition ly
            (specZoomOffset (ly.containerWidth / 2) st.posX st.scale
              (specZoomScale st.scale (if zoomIn then 5/4 else 4/5)))
            (specZoomOffset (ly.containerHeight / 2) st.posY st.scale
              (specZoomScale st.scale (if zoomIn then 5/4 else 4/5)))
            (specZoomScale st.scale (if zoomIn then 5/4 else 4/5))).2 } :=
  ⟨rfl, rfl⟩

/-! ## C8 -/

/-- C8: when neither application of the clamp is active, pressing zoom-in
and then zoom-out multiplies the scale by `1.25 × 0.8 = 1`, returning it
exactly (hence in particular approximately) to its original value. -/
theorem zoom_in_out_roundtrip (ly : Layout) (st : ZoomState)
    (h1 : MIN_SCALE ≤ st.scale * (5/4)) (h2 : st.scale * (5/4) ≤ MAX_SCALE)
    (h3 : MIN_SCALE ≤ st.scale * (5/4) * (4/5))
    (h4 : st.scale * (5/4) * (4/5) ≤ MAX_SCALE) :
    (handleZoom ly (handleZoom ly st true) false).scale = st.scale := by
  have e1 : (handleZoom ly st true).scale = st.scale * (5/4) := by
    show max MIN_SCALE (min MAX_SCALE (st.scale * (5/4))) = st.scale * (5/4)
    rw [min_eq_right h2, max_eq_right h1]
  show max MIN_SCALE (min MAX_SCALE ((handleZoom ly st true).scale * (4/5)))
      = st.scale
  rw [e1, min_eq_right h4, max_eq_right h3]
  ring

/-- C8 witness: from the initial scale 1, zoom-in then zoom-out returns the
scale to exactly 1. -/
theorem zoom_in_out_roundtrip_witness :
    (handleZoom sampleLayout (handleZoom sampleLayout initZoomState true)
      false).scale = initZoomState.scale :=
  zoom_in_out_roundtrip sampleLayout initZoomState
    (by norm_num [MIN_SCALE, initZoomState])
    (by norm_num [MAX_SCALE, initZoomState])
    (by norm_num [MIN_SCALE, initZoomState])
    (by norm_num [MAX_SCALE, initZoomState])

/-! ## C2 -/

/-- A layout whose image is wider than its container at scale 1. -/
def wideLayout : Layout := ⟨100, 100, 300, 100, 0, 0⟩

/-- C2: the claim fails on the code.  The guard
`if (scale <= 1 && e.button === 0) return` only blocks the PRIMARY button:
pressing a non-primary button (here button 2) at scale 1 enters the
dragging state, and a subsequent mouse move changes the offset (the image
is wider than the container, so the clamp does not force it back to 0),
contradicting both halves of the claim and the source's own comment
"Only allow dragging when zoomed". -/
theorem mousedown_secondary_button_drags_at_scale_one :
    (zoomStep wideLayout initZoomState (ZoomEvent.mouseDown 0 0 2)).dragging = true
    ∧ (zoomRun wideLayout initZoomState
        [ZoomEvent.mouseDown 0 0 2, ZoomEvent.mouseMove 5 0]).posX = 5
    ∧ (zoomRun wideLayout initZoomState
        [ZoomEvent.mouseDown 0 0 2, ZoomEvent.mouseMove 5 0]).scale ≤ 1 := by
  refine ⟨rfl, ?_, ?_⟩
  · show max (-overhangX wideLayout 1) (min (overhangX wideLayout 1) (5 - (0 - 0))) = 5
    have hov : overhangX wideLayout 1 = 100 := by
      norm_num [overhangX, wideLayout]
    rw [hov]
    norm_num
  · show (1 : ℚ) ≤ 1
    norm_num

/-! ## Drag-reorder (`src/components/DraggableFileList.tsx`) -/

/-- `handleDragEnd` (lines 24–39), as a function of the captured
`draggingItem` / `dragOverItem.current` indices: `none` when no reorder
callback is emitted, `some files2` when `onReorder(files2)` is called.  The
indices are captured from rendered rows, so `files[draggingItem]` always
exists in the component; the unreachable out-of-range case is mapped to no
callback. -/
def handleDragEnd (files : List MarkdownFile)
    (draggingItem dragOverItem : Option ℕ) : Option (List MarkdownFile) :=
  match draggingItem, dragOverItem with
  | some i, some j =>
    if i = j then none
    else
      match files[i]? with
      | some dragged => some ((files.eraseIdx i).insertIdx j dragged)
      | none => none
  | _, _ => none

/-- Inserting an element anywhere (within bounds) is a permutation of
consing it. -/
theorem insertIdx_perm_cons {α : Type} (x : α) :
    ∀ (j : ℕ) (l : List α), j ≤ l.length → (l.insertIdx j x).Perm (x :: l) := by
  intro j
  induction j with
  | zero =>
    intro l _
    rw [List.insertIdx_zero]
  | succ j ih =>
    intro l hl
    cases l with
    | nil => simp at hl
    | cons a t =>
      rw [List.insertIdx_succ_cons]
      exact ((ih t (by simpa using hl)).cons a).trans (List.Perm.swap x a t)

/-- A list is a permutation of its `i`-th element consed onto the list with
that element removed. -/
theorem perm_cons_getElem_eraseIdx {α : Type} :
    ∀ (l : List α) (i : ℕ) (hi : i < l.length),
      l.Perm (l.get ⟨i, hi⟩ :: l.eraseIdx i) := by
  intro l
  induction l with
  | nil =>
    intro i hi
    simp at hi
  | cons a t ih =>
    intro i hi
    cases i with
    | zero => exact List.Perm.refl _
    | succ i =>
      have hi' : i < t.length := by simpa using hi
      show (a :: t).Perm (t.get ⟨i, hi'⟩ :: a :: t.eraseIdx i)
      exact ((ih i hi').cons a).trans (List.Perm.swap _ a _)

/-- C10: with valid captured indices, the emitted reordered list is exactly
the input with the dragged element removed from its start index and
inserted at the drop index — a permutation of the input of unchanged
length; when the indices coincide, or either index is absent, no callback
is emitted. -/
theorem handleDragEnd_reorder (files : List MarkdownFile) (i j : ℕ)
    (hi : i < files.length) (hj : j < files.length) :
    (∀ r, handleDragEnd files (some i) (some j) = some r →
        r = (files.eraseIdx i).insertIdx j (files.get ⟨i, hi⟩)
        ∧ r.Perm files ∧ r.length = files.length)
    ∧ (i = j → handleDragEnd files (some i) (some j) = none)
    ∧ (∀ o, handleDragEnd files none o = none)
    ∧ (∀ d, handleDragEnd files d none = none) := by
  have hlen : (files.eraseIdx i).length + 1 = files.length :=
    List.length_eraseIdx_add_one hi
  have hjle : j ≤ (files.eraseIdx i).length := by omega
  refine ⟨?_, ?_, ?_, ?_⟩
  · intro r hr
    by_cases hij : i = j
    · rw [handleDragEnd, if_pos hij] at hr
      exact absurd hr (by simp)
    · rw [handleDragEnd, if_neg hij, List.getElem?_eq_getElem hi] at hr
      have hr' : r = (files.eraseIdx i).insertIdx j files[i] :=
        (Option.some.injEq _ _ ▸ hr).symm
      have hperm : ((files.eraseIdx i).insertIdx j files[i]).Perm files := by
        refine (insertIdx_perm_cons files[i] j (files.eraseIdx i) hjle).trans ?_
        exact (perm_cons_getElem_eraseIdx files i hi).symm
      refine ⟨hr', hr' ▸ hperm, ?_⟩
      rw [hr', List.length_insertIdx _ _ hjle]
      omega
  · intro hij
    rw [handleDragEnd, if_pos hij]
  · intro o
    rfl
  · intro d
    cases d <;> rfl

/-- C10 witness: dragging the first of three files onto index 2 emits the
cyclic left rotation, a permutation of the input. -/
theorem handleDragEnd_reorder_witness :
    ([⟨"2", "b", "y"⟩, ⟨"3", "c", "z"⟩, ⟨"1", "a", "x"⟩] : List MarkdownFile).Perm
      [⟨"1", "a", "x"⟩, ⟨"2", "b", "y"⟩, ⟨"3", "c", "z"⟩] :=
  ((handleDragEnd_reorder
      [⟨"1", "a", "x"⟩, ⟨"2", "b", "y"⟩, ⟨"3", "c", "z"⟩] 0 2
      (by norm_num) (by norm_num)).1
    [⟨"2", "b", "y"⟩, ⟨"3", "c", "z"⟩, ⟨"1", "a", "x"⟩] rfl).2.1

/-! ## Asset map (`src/App.tsx`)

`assetMap` is a JS `Map<string, string>`, modelled as its insertion-ordered
entry list.  `URL.createObjectURL` handles are modelled as naturals drawn
from a fresh counter; `URL.revokeObjectURL` appends to a revocation log. -/

/-- One entry of the `FileList` given to `handleAssetsFolderUpload`: its
`name` and its optional `webkitRelativePath`. -/
structure AssetFile where
  name : String
  relPath : Option String
deriving DecidableEq, Repr

/-- `(file.webkitRelativePath as string | undefined)?.trim() || file.name`
(App.tsx line 51): the trimmed relative path when present and non-empty
after trimming (an absent path, or one trimming to the falsy empty string,
falls back to the file name). -/
def assetKey (f : AssetFile) : String :=
  match f.relPath with
  | some p => if jsTrim p.data = [] then f.name else String.mk (jsTrim p.data)
  | none => f.name

/-- JS `Map.prototype.get` over the insertion-ordered entry list. -/
def mapGet (m : List (String × ℕ)) (k : String) : Option ℕ :=
  match m with
  | [] => none
  | (k2, v) :: rest => if k2 = k then some v else mapGet rest k

/-- JS `Map.prototype.set`: overwrite in place if the key exists, append
otherwise. -/
def mapSet (m : List (String × ℕ)) (k : String) (v : ℕ) : List (String × ℕ) :=
  match m with
  | [] => [(k, v)]
  | (k2, v2) :: rest =>
    if k2 = k then (k, v) :: rest else (k2, v2) :: mapSet rest k v

/-- JS `Map.prototype.delete` (a `Map` holds each key at most once). -/
def mapDelete (m : List (String × ℕ)) (k : String) : List (String × ℕ) :=
  m.filter fun p => decide (p.1 ≠ k)

/-- The asset-map state: the map entries, the fresh-handle counter standing
for `URL.createObjectURL`, and the log of handles passed to
`URL.revokeObjectURL`. -/
structure AssetState where
  urls : List (String × ℕ)
  nextId : ℕ
  revoked : List ℕ
deriving DecidableEq, Repr

/-- The `forEach` body of `handleAssetsFolderUpload` (App.tsx lines 50–57)
for one file: if the key is present, revoke its current handle; then create
a fresh handle and set the mapping. -/
def uploadOne (st : AssetState) (f : AssetFile) : AssetState :=
  let key := assetKey f
  let revoked2 := match mapGet st.urls key with
    | some u => st.revoked ++ [u]
    | none => st.revoked
  { urls := mapSet st.urls key st.nextId
    nextId := st.nextId + 1
    revoked := revoked2 }

/-- `handleAssetsFolderUpload` (App.tsx lines 45–60): fold the loop body
over the uploaded files (an empty upload returns early, which coincides
with folding over an empty list). -/
def handleAssetsFolderUpload (st : AssetState) (files : List AssetFile) :
    AssetState :=
  files.foldl uploadOne st

/-- `handleDeleteAsset` (App.tsx lines 62–72): revoke the handle under the
key (blob URLs are never the falsy empty string, so `if (url)` is the
`some` test) and remove the entry. -/
def handleDeleteAsset (st : AssetState) (assetName : String) : AssetState :=
  let revoked2 := match mapGet st.urls assetName with
    | some u => st.revoked ++ [u]
    | none => st.revoked
  { urls := mapDelete st.urls assetName
    nextId := st.nextId
    revoked := revoked2 }

/-- Handle hygiene: every handle in the map or the log is below the fresh
counter; keys are distinct (a JS `Map` property); live handle values are
distinct; the log never repeats a handle; and no live handle has already
been revoked.  Together the last two make every release happen at most
once. -/
def AssetInv (st : AssetState) : Prop :=
  (∀ p ∈ st.urls, p.2 < st.nextId) ∧
  (∀ u ∈ st.revoked, u < st.nextId) ∧
  st.urls.Pairwise (fun p q => p.1 ≠ q.1) ∧
  (st.urls.map Prod.snd).Nodup ∧
  st.revoked.Nodup ∧
  (∀ p ∈ st.urls, p.2 ∉ st.revoked)

theorem mapGet_mapSet_self (m : List (String × ℕ)) (k : String) (v : ℕ) :
    mapGet (mapSet m k v) k = some v := by
  induction m with
  | nil => simp [mapSet, mapGet]
  | cons p rest ih =>
    obtain ⟨k2, v2⟩ := p
    by_cases h : k2 = k
    · simp [mapSet, mapGet, h]
    · simp [mapSet, mapGet, h, ih]

theorem mapGet_mapSet_ne (m : List (String × ℕ)) (k k2 : String) (v : ℕ)
    (h : k2 ≠ k) : mapGet (mapSet m k v) k2 = mapGet m k2 := by
  have hk : ¬k = k2 := fun hh => h hh.symm
  induction m with
  | nil =>
    show (if k = k2 then some v else mapGet [] k2) = none
    rw [if_neg hk]
    rfl
  | cons p rest ih =>
    obtain ⟨k3, v3⟩ := p
    rw [mapSet]
    by_cases h3 : k3 = k
    · rw [if_pos h3]
      show mapGet ((k, v) :: rest) k2 = mapGet ((k3, v3) :: rest) k2
      rw [mapGet, mapGet, if_neg hk, if_neg (fun hh => hk (h3.symm.trans hh))]
    · rw [if_neg h3]
      show mapGet ((k3, v3) :: mapSet rest k v) k2 = mapGet ((k3, v3) :: rest) k2
      rw [mapGet, mapGet]
      by_cases h4 : k3 = k2
      · rw [if_pos h4, if_pos h4]
      · rw [if_neg h4, if_neg h4]
        exact ih

theorem mem_mapSet {m : List (String × ℕ)} {k : String} {v : ℕ}
    {p : String × ℕ} (hp : p ∈ mapSet m k v) : p = (k, v) ∨ p ∈ m := by
  induction m with
  | nil => simpa [mapSet] using hp
  | cons q rest ih =>
    obtain ⟨k2, v2⟩ := q
    by_cases h : k2 = k
    · rw [mapSet] at hp
      simp only [if_pos h] at hp
      rcases List.mem_cons.1 hp with rfl | hp
      · exact Or.inl rfl
      · exact Or.inr (List.mem_cons_of_mem _ hp)
    · rw [mapSet] at hp
      simp only [if_neg h] at hp
      rcases List.mem_cons.1 hp with rfl | hp
      · exact Or.inr (List.mem_cons_self _ _)
      · rcases ih hp with h1 | h1
        · exact Or.inl h1
        · exact Or.inr (List.mem_cons_of_mem _ h1)

theorem mem_mapSet_strong {m : List (String × ℕ)} {k : String} {v : ℕ}
    {p : String × ℕ} (hdist : m.Pairwise (fun p q => p.1 ≠ q.1))
    (hp : p ∈ mapSet m k v) : p = (k, v) ∨ (p ∈ m ∧ p.1 ≠ k) := by
  induction m with
  | nil => simpa [mapSet] using hp
  | cons q rest ih =>
    obtain ⟨k2, v2⟩ := q
    obtain ⟨hhd, htl⟩ := List.pairwise_cons.1 hdist
    by_cases h : k2 = k
    · subst h
      rw [mapSet] at hp
      simp only [if_pos rfl] at hp
      rcases List.mem_cons.1 hp with rfl | hp
      · exact Or.inl rfl
      · exact Or.inr ⟨List.mem_cons_of_mem _ hp, (hhd p hp).symm⟩
    · rw [mapSet] at hp
      simp only [if_neg h] at hp
      rcases List.mem_cons.1 hp with rfl | hp
      · exact Or.inr ⟨List.mem_cons_self _ _, h⟩
      · rcases ih htl hp with h1 | h1
        · exact Or.inl h1
        · exact Or.inr ⟨List.mem_cons_of_mem _ h1.1, h1.2⟩

theorem mapGet_mem {m : List (String × ℕ)} {k : String} {u : ℕ}
    (h : mapGet m k = some u) : (k, u) ∈ m := by
  induction m with
  | nil => simp [mapGet] at h
  | cons p rest ih =>
    obtain ⟨k2, v2⟩ := p
    by_cases h2 : k2 = k
    · subst h2
      rw [mapGet, if_pos rfl] at h
      obtain rfl := Option.some.inj h
      exact List.mem_cons_self _ _
    · rw [mapGet, if_neg h2] at h
      exact List.mem_cons_of_mem _ (ih h)

theorem mapGet_eq_none {m : List (String × ℕ)} {k : String}
    (h : ∀ p ∈ m, p.1 ≠ k) : mapGet m k = none := by
  induction m with
  | nil => rfl
  | cons p rest ih =>
    obtain ⟨k2, v2⟩ := p
    rw [mapGet, if_neg (h (k2, v2) (List.mem_cons_self _ _))]
    exact ih fun q hq => h q (List.mem_cons_of_mem _ hq)

theorem mapSet_pairwise {m : List (String × ℕ)} {k : String} {v : ℕ}
    (hdist : m.Pairwise (fun p q => p.1 ≠ q.1)) :
    (mapSet m k v).Pairwise (fun p q => p.1 ≠ q.1) := by
  induction m with
  | nil => simp [mapSet]
  | cons q rest ih =>
    obtain ⟨k2, v2⟩ := q
    obtain ⟨hhd, htl⟩ := List.pairwise_cons.1 hdist
    by_cases h : k2 = k
    · subst h
      rw [mapSet]
      simp only [if_pos rfl]
      exact List.pairwise_cons.2 ⟨fun q hq => hhd q hq, htl⟩
    · rw [mapSet]
      simp only [if_neg h]
      refine List.pairwise_cons.2 ⟨?_, ih htl⟩
      intro q hq
      rcases mem_mapSet hq with rfl | hq
      · exact h
      · exact hhd q hq

theorem mem_values {m : List (String × ℕ)} {u : ℕ}
    (h : u ∈ m.map Prod.snd) : ∃ p ∈ m, p.2 = u := by
  obtain ⟨p, hp, hu⟩ := List.mem_map.1 h
  exact ⟨p, hp, hu⟩

theorem mapSet_values_nodup {m : List (String × ℕ)} {k : String} {v : ℕ}
    (hbound : ∀ p ∈ m, p.2 < v) (hnd : (m.map Prod.snd).Nodup) :
    ((mapSet m k v).map Prod.snd).Nodup := by
  induction m with
  | nil => simp [mapSet]
  | cons q rest ih =>
    obtain ⟨k2, v2⟩ := q
    rw [List.map_cons, List.nodup_cons] at hnd
    by_cases h : k2 = k
    · rw [mapSet]
      simp only [if_pos h, List.map_cons, List.nodup_cons]
      refine ⟨fun hv => ?_, hnd.2⟩
      obtain ⟨p, hp, hpv⟩ := mem_values hv
      exact absurd hpv (Nat.ne_of_lt (hbound p (List.mem_cons_of_mem _ hp)))
    · rw [mapSet]
      simp only [if_neg h, List.map_cons, List.nodup_cons]
      refine ⟨fun hv => ?_,
        ih (fun p hp => hbound p (List.mem_cons_of_mem _ hp)) hnd.2⟩
      obtain ⟨p, hp, hpv⟩ := mem_values hv
      rcases mem_mapSet hp with rfl | hp
      · exact absurd hpv.symm
          (Nat.ne_of_lt (hbound (k2, v2) (List.mem_cons_self _ _)))
      · have hmem : p.2 ∈ rest.map Prod.snd := List.mem_map_of_mem Prod.snd hp
        rw [hpv] at hmem
        exact hnd.1 hmem

theorem mapGet_mapDelete_self (m : List (String × ℕ)) (k : String) :
    mapGet (mapDelete m k) k = none := by
  refine mapGet_eq_none fun p hp => ?_
  have := List.mem_filter.1 hp
  simpa using this.2

theorem mapGet_mapDelete_ne (m : List (String × ℕ)) (k k2 : String)
    (h : k2 ≠ k) : mapGet (mapDelete m k) k2 = mapGet m k2 := by
  induction m with
  | nil => rfl
  | cons p rest ih =>
    obtain ⟨k3, v3⟩ := p
    by_cases h3 : k3 = k
    · subst h3
      show mapGet (List.filter _ ((k3, v3) :: rest)) k2 = _
      rw [List.filter_cons_of_neg (by simp), mapGet,
        if_neg (fun hh => h hh.symm)]
      exact ih
    · show mapGet (List.filter _ ((k3, v3) :: rest)) k2 = _
      rw [List.filter_cons_of_pos (by simpa using h3)]
      by_cases h4 : k3 = k2
      · rw [mapGet, if_pos h4, mapGet, if_pos h4]
      · rw [mapGet, if_neg h4, mapGet, if_neg h4]
        exact ih

theorem mapDelete_sublist (m : List (String × ℕ)) (k : String) :
    (mapDelete m k).Sublist m :=
  List.filter_sublist m

theorem handleAssetsFolderUpload_single (st : AssetState) (f : AssetFile) :
    handleAssetsFolderUpload st [f] = uploadOne st f := rfl

theorem nodup_append_singleton {l : List ℕ} {a : ℕ} (hl : l.Nodup)
    (ha : a ∉ l) : (l ++ [a]).Nodup := by
  rw [List.nodup_append]
  refine ⟨hl, List.nodup_singleton a, fun x hx hxa => ?_⟩
  rw [List.mem_singleton] at hxa
  exact ha (hxa ▸ hx)

theorem count_append_singleton_self {l : List ℕ} {a : ℕ} (ha : a ∉ l) :
    (l ++ [a]).count a = 1 := by
  rw [List.count_append, List.count_eq_zero.2 ha]
  simp

/-- C9: on a handle-hygienic state, uploading a file whose key already
exists revokes exactly the prior handle (once) and remaps the key to the
fresh handle; deleting a key revokes its handle once and removes exactly
that key; in both operations every other key's mapping is unchanged, and
the hygiene invariant is preserved — so no handle is ever released twice. -/
theorem asset_ops_replace_delete (st : AssetState) (f : AssetFile)
    (k : String) (hInv : AssetInv st) :
    mapGet (handleAssetsFolderUpload st [f]).urls (assetKey f) = some st.nextId
    ∧ (∀ k2, k2 ≠ assetKey f →
        mapGet (handleAssetsFolderUpload st [f]).urls k2 = mapGet st.urls k2)
    ∧ (∀ u, mapGet st.urls (assetKey f) = some u →
        (handleAssetsFolderUpload st [f]).revoked = st.revoked ++ [u]
        ∧ (handleAssetsFolderUpload st [f]).revoked.count u = 1)
    ∧ AssetInv (handleAssetsFolderUpload st [f])
    ∧ mapGet (handleDeleteAsset st k).urls k = none
    ∧ (∀ k2, k2 ≠ k →
        mapGet (handleDeleteAsset st k).urls k2 = mapGet st.urls k2)
    ∧ (∀ u, mapGet st.urls k = some u →
        (handleDeleteAsset st k).revoked = st.revoked ++ [u]
        ∧ (handleDeleteAsset st k).revoked.count u = 1)
    ∧ AssetInv (handleDeleteAsset st k) := by
  obtain ⟨hb1, hb2, hpw, hvn, hrn, hlive⟩ := hInv
  have hvinj := List.inj_on_of_nodup_map hvn
  refine ⟨?_, ?_, ?_, ?_, ?_, ?_, ?_, ?_⟩
  · exact mapGet_mapSet_self st.urls (assetKey f) st.nextId
  · intro k2 hk2
    exact mapGet_mapSet_ne st.urls (assetKey f) k2 st.nextId hk2
  · intro u hu
    have hnotin : u ∉ st.revoked := hlive (assetKey f, u) (mapGet_mem hu)
    have hrev : (handleAssetsFolderUpload st [f]).revoked = st.revoked ++ [u] := by
      show (match mapGet st.urls (assetKey f) with
            | some u2 => st.revoked ++ [u2]
            | none => st.revoked) = st.revoked ++ [u]
      rw [hu]
    exact ⟨hrev, by rw [hrev]; exact count_append_singleton_self hnotin⟩
  · have hrevlt : ∀ u ∈ (handleAssetsFolderUpload st [f]).revoked,
        u < st.nextId := by
      show ∀ u ∈ (match mapGet st.urls (assetKey f) with
            | some u2 => st.revoked ++ [u2]
            | none => st.revoked), u < st.nextId
      cases hmg : mapGet st.urls (assetKey f) with
      | none => exact hb2
      | some u0 =>
        intro u hu
        rcases List.mem_append.1 hu with hu | hu
        · exact hb2 u hu
        · rw [List.mem_singleton] at hu
          subst hu
          exact hb1 (assetKey f, u) (mapGet_mem hmg)
    have hrevnd : (handleAssetsFolderUpload st [f]).revoked.Nodup := by
      show (match mapGet st.urls (assetKey f) with
            | some u2 => st.revoked ++ [u2]
            | none => st.revoked).Nodup
      cases hmg : mapGet st.urls (assetKey f) with
      | none => exact hrn
      | some u0 =>
        exact nodup_append_singleton hrn (hlive (assetKey f, u0) (mapGet_mem hmg))
    refine ⟨?_, ?_, mapSet_pairwise hpw, mapSet_values_nodup hb1 hvn, hrevnd, ?_⟩
    · intro p hp
      show p.2 < st.nextId + 1
      rcases mem_mapSet hp with rfl | hp
      · exact Nat.lt_succ_self _
      · exact Nat.lt_succ_of_lt (hb1 p hp)
    · intro u hu
      exact Nat.lt_succ_of_lt (hrevlt u hu)
    · intro p hp hpin
      rcases mem_mapSet_strong hpw hp with rfl | ⟨hpm, hpk⟩
      · exact absurd (hrevlt _ hpin) (lt_irrefl _)
      · revert hpin
        show p.2 ∈ (match mapGet st.urls (assetKey f) with
              | some u2 => st.revoked ++ [u2]
              | none => st.revoked) → False
        cases hmg : mapGet st.urls (assetKey f) with
        | none => exact fun hpin => hlive p hpm hpin
        | some u0 =>
          intro hpin
          rcases List.mem_append.1 hpin with hpin | hpin
          · exact hlive p hpm hpin
          · rw [List.mem_singleton] at hpin
            have hpe : p = (assetKey f, u0) := hvinj hpm (mapGet_mem hmg) hpin
            exact hpk (by rw [hpe])
  · exact mapGet_mapDelete_self st.urls k
  · intro k2 hk2
    exact mapGet_mapDelete_ne st.urls k k2 hk2
  · intro u hu
    have hnotin : u ∉ st.revoked := hlive (k, u) (mapGet_mem hu)
    have hrev : (handleDeleteAsset st k).revoked = st.revoked ++ [u] := by
      show (match mapGet st.urls k with
            | some u2 => st.revoked ++ [u2]
            | none => st.revoked) = st.revoked ++ [u]
      rw [hu]
    exact ⟨hrev, by rw [hrev]; exact count_append_singleton_self hnotin⟩
  · have hrevlt : ∀ u ∈ (handleDeleteAsset st k).revoked, u < st.nextId := by
      show ∀ u ∈ (match mapGet st.urls k with
            | some u2 => st.revoked ++ [u2]
            | none => st.revoked), u < st.nextId
      cases hmg : mapGet st.urls k with
      | none => exact hb2
      | some u0 =>
        intro u hu
        rcases List.mem_append.1 hu with hu | hu
        · exact hb2 u hu
        · rw [List.mem_singleton] at hu
          subst hu
          exact hb1 (k, u) (mapGet_mem hmg)
    have hrevnd : (handleDeleteAsset st k).revoked.Nodup := by
      show (match mapGet st.urls k with
            | some u2 => st.revoked ++ [u2]
            | none => st.revoked).Nodup
      cases hmg : mapGet st.urls k with
      | none => exact hrn
      | some u0 =>
        exact nodup_append_singleton hrn (hlive (k, u0) (mapGet_mem hmg))
    refine ⟨?_, hrevlt, List.Pairwise.sublist (mapDelete_sublist st.urls k) hpw,
      List.Nodup.sublist ((mapDelete_sublist st.urls k).map Prod.snd) hvn,
      hrevnd, ?_⟩
    · intro p hp
      show p.2 < st.nextId
      exact hb1 p ((mapDelete_sublist st.urls k).subset hp)
    · intro p hp hpin
      have hpm : p ∈ st.urls := (mapDelete_sublist st.urls k).subset hp
      have hpk : p.1 ≠ k := by
        have hf := List.mem_filter.1 hp
        simpa using hf.2
      revert hpin
      show p.2 ∈ (match mapGet st.urls k with
            | some u2 => st.revoked ++ [u2]
            | none => st.revoked) → False
      cases hmg : mapGet st.urls k with
      | none => exact fun hpin => hlive p hpm hpin
      | some u0 =>
        intro hpin
        rcases List.mem_append.1 hpin with hpin | hpin
        · exact hlive p hpm hpin
        · rw [List.mem_singleton] at hpin
          have hpe : p = (k, u0) := hvinj hpm (mapGet_mem hmg) hpin
          exact hpk (by rw [hpe])

/-- C9 witness: replacing the existing key `"a.png"` in a one-entry map
revokes handle 0 exactly once. -/
theorem asset_ops_replace_delete_witness :
    (handleAssetsFolderUpload ⟨[("a.png", 0)], 1, []⟩ [⟨"a.png", none⟩]).revoked
        = [] ++ [0]
    ∧ (handleAssetsFolderUpload ⟨[("a.png", 0)], 1, []⟩
        [⟨"a.png", none⟩]).revoked.count 0 = 1 :=
  (asset_ops_replace_delete ⟨[("a.png", 0)], 1, []⟩ ⟨"a.png", none⟩ "a.png"
      (by unfold AssetInv; decide)).2.2.1 0 (by decide)

end MarkdownDeck
